import Mathlib

/-!
Verification of the character-level codec and windowed dataset builder of
the quijote notebook (src/rnn.ipynb), shallowly embedded in Lean.

The source builds a vocabulary from the corpus with
  characters = list(sorted(set(text)))
  ctoi = {c:i for i, c in enumerate(characters)}
  itoc = {i:c for c, i in ctoi.items()}
encodes a string as [ctoi[c] for c in s] (a missing key raises KeyError),
decodes a list of integers as [itoc[i] for i in ids], builds the sliding
window dataset with

  def build_dataset(text):
      X, Y = [], []
      context = text[:context_size]
      for c in text[context_size:]:
          X.append(torch.tensor([ctoi[c] for c in context], ...))
          Y.append(torch.tensor(ctoi[c], ...))
          context = context[1:] + c
      X = torch.stack(X)
      Y = torch.stack(Y)
      return X, Y

and splits the corpus with n = int(0.8*len(text)); text[:n]; text[n:].
`torch.stack` raises a RuntimeError when applied to an empty list
(and when the stacked tensors have different shapes); we model that by
an Option-valued `stack`, and KeyError lookups by Option-valued maps.
In the source `context_size` and the text the vocabulary is built
from are globals; they are explicit parameters here.
-/

namespace Quijote

/-- Option-valued map over a list, failing at the first element where `f`
fails: the model of a Python comprehension whose body can raise KeyError. -/
def mapOpt {α β : Type} (f : α → Option β) : List α → Option (List β)
  | [] => some []
  | a :: l => do
    let b ← f a
    let bs ← mapOpt f l
    pure (b :: bs)

/-- `characters = list(sorted(set(text)))`: the distinct characters of the
corpus in increasing code-point order (`set` is modelled by `dedup`, whose
iteration order is then erased by the sort, and `sorted` by an insertion
sort over the code-point order). -/
def characters (text : List Char) : List Char :=
  List.insertionSort (· ≤ ·) text.dedup

/-- Lookup in the dict `ctoi = {c:i for i, c in enumerate(characters)}`;
`none` models the KeyError raised for a character not in the vocabulary. -/
def ctoi (text : List Char) (c : Char) : Option Nat :=
  if c ∈ characters text then some ((characters text).indexOf c) else none

/-- Lookup in the dict `itoc = {i:c for c, i in ctoi.items()}`; `none`
models the KeyError raised for an index with no vocabulary entry. -/
def itoc (text : List Char) (i : Nat) : Option Char :=
  (characters text)[i]?

/-- `[ctoi[c] for c in s]` — encoding a character sequence against the
vocabulary built from `text`. -/
def encode (text : List Char) (s : List Char) : Option (List Nat) :=
  mapOpt (ctoi text) s

/-- `[itoc[i] for i in ids]` — decoding an integer sequence against the
vocabulary built from `text`. -/
def decode (text : List Char) (ids : List Nat) : Option (List Char) :=
  mapOpt (itoc text) ids

/-- `torch.stack` on a list of rank-1 tensors: fails on the empty list and
when two tensors have different lengths. -/
def stack2 (l : List (List Nat)) : Option (List (List Nat)) :=
  match l with
  | [] => none
  | x :: xs => if xs.all (fun y => y.length == x.length) then some (x :: xs) else none

/-- `torch.stack` on a list of scalar tensors: fails on the empty list. -/
def stack1 (l : List Nat) : Option (List Nat) :=
  match l with
  | [] => none
  | x :: xs => some (x :: xs)

/-- The `for c in text[context_size:]` loop of `build_dataset`, threading
the sliding `context` (updated by `context = context[1:] + c`). -/
def buildLoop (vtext : List Char) (context rest : List Char) :
    Option (List (List Nat) × List Nat) :=
  match rest with
  | [] => some ([], [])
  | c :: rest' => do
    let x ← encode vtext context
    let y ← ctoi vtext c
    let p ← buildLoop vtext (context.drop 1 ++ [c]) rest'
    pure (x :: p.1, y :: p.2)

/-- `build_dataset(text)` of the source, with the global `context_size` and
the corpus `vtext` the vocabulary was built from made explicit. -/
def build_dataset (vtext : List Char) (context_size : Nat) (text : List Char) :
    Option (List (List Nat) × List Nat) := do
  let p ← buildLoop vtext (text.take context_size) (text.drop context_size)
  let X ← stack2 p.1
  let Y ← stack1 p.2
  pure (X, Y)

/-- Modelled from the spec: the source has only the fixed instance
`n = int(0.8*len(text)); text[:n]; text[n:]` of the split; the spec
generalises it to `split_corpus(corpus, train_fraction)` with
`n = floor(train_fraction * length(corpus))`. The fraction is the rational
`num / den` here; `int` truncation of the nonnegative product is floor,
and `floor((num/den) * L) = num * L / den` in natural-number division.
At `num = 4`, `den = 5` this is the source's `int(0.8*len(text))` split. -/
def split_corpus (num den : Nat) (corpus : List Char) : List Char × List Char :=
  let n : Nat := num * corpus.length / den
  (corpus.take n, corpus.drop n)

/-- The index a character of the corpus is encoded to. -/
def charIndex (text : List Char) (c : Char) : Nat :=
  (characters text).indexOf c

theorem mem_characters {text : List Char} {c : Char} :
    c ∈ characters text ↔ c ∈ text := by
  simp [characters, List.mem_insertionSort, List.mem_dedup]

theorem nodup_characters (text : List Char) : (characters text).Nodup :=
  (List.perm_insertionSort _ _).nodup_iff.2 (List.nodup_dedup text)

theorem sorted_characters (text : List Char) :
    List.Sorted (· ≤ ·) (characters text) :=
  List.sorted_insertionSort _ _

theorem length_characters (text : List Char) :
    (characters text).length = text.dedup.length :=
  List.length_insertionSort _ _

theorem ctoi_eq_some {text : List Char} {c : Char} (h : c ∈ text) :
    ctoi text c = some (charIndex text c) := by
  simp [ctoi, charIndex, mem_characters.2 h]

theorem charIndex_lt {text : List Char} {c : Char} (h : c ∈ text) :
    charIndex text c < (characters text).length :=
  List.indexOf_lt_length.2 (mem_characters.2 h)

theorem itoc_charIndex {text : List Char} {c : Char} (h : c ∈ text) :
    itoc text (charIndex text c) = some c := by
  have hlt := charIndex_lt h
  simp only [itoc, charIndex] at *
  rw [List.getElem?_eq_getElem hlt, List.getElem_indexOf]

theorem encode_eq_some {text s : List Char} (h : ∀ c ∈ s, c ∈ text) :
    encode text s = some (s.map (charIndex text)) := by
  induction s with
  | nil => rfl
  | cons c s ih =>
    have hc : c ∈ text := h c (List.mem_cons_self c s)
    have hs : ∀ x ∈ s, x ∈ text := fun x hx => h x (List.mem_cons_of_mem c hx)
    rw [encode] at ih ⊢
    simp only [mapOpt, ctoi_eq_some hc, Option.bind_eq_bind, Option.some_bind]
    rw [ih hs]
    rfl

theorem ctoi_some_inv {text : List Char} {c : Char} {i : Nat}
    (h : ctoi text c = some i) : c ∈ text ∧ i = charIndex text c := by
  by_cases hm : c ∈ characters text
  · rw [ctoi, if_pos hm] at h
    exact ⟨mem_characters.1 hm, (Option.some_inj.1 h).symm⟩
  · rw [ctoi, if_neg hm] at h
    exact Option.noConfusion h

theorem encode_some_inv {text : List Char} :
    ∀ {s : List Char} {ids : List Nat}, encode text s = some ids →
    (∀ c ∈ s, c ∈ text) ∧ ids = s.map (charIndex text) := by
  intro s
  induction s with
  | nil =>
    intro ids h
    rw [encode, mapOpt] at h
    exact ⟨fun c hc => absurd hc (List.not_mem_nil c), (Option.some_inj.1 h).symm⟩
  | cons c s ih =>
    intro ids h
    rw [encode, mapOpt] at h
    cases hc : ctoi text c with
    | none => rw [hc] at h; exact Option.noConfusion h
    | some b =>
      rw [hc] at h
      cases hs : mapOpt (ctoi text) s with
      | none => rw [hs] at h; exact Option.noConfusion h
      | some bs =>
        rw [hs] at h
        obtain ⟨hcmem, hb⟩ := ctoi_some_inv hc
        obtain ⟨hsmem, hbs⟩ := ih hs
        refine ⟨?_, ?_⟩
        · intro x hx
          rcases List.mem_cons.1 hx with hx | hx
          · rw [hx]; exact hcmem
          · exact hsmem x hx
        · have : b :: bs = ids := Option.some_inj.1 h
          rw [List.map_cons, ← hb, ← hbs, this]

theorem encode_eq_none_iff {text s : List Char} :
    encode text s = none ↔ ∃ c ∈ s, c ∉ characters text := by
  constructor
  · intro h
    by_contra hno
    push_neg at hno
    have hmem : ∀ c ∈ s, c ∈ text := fun c hc => mem_characters.1 (hno c hc)
    rw [encode_eq_some hmem] at h
    exact Option.noConfusion h
  · rintro ⟨c, hc, hnot⟩
    cases he : encode text s with
    | none => rfl
    | some ids =>
      obtain ⟨hmem, -⟩ := encode_some_inv he
      exact absurd (mem_characters.2 (hmem c hc)) hnot

theorem decode_encode_of_lt {text : List Char} :
    ∀ {ids : List Nat}, (∀ i ∈ ids, i < (characters text).length) →
    (decode text ids).bind (encode text) = some ids := by
  intro ids
  induction ids with
  | nil => intro _; rfl
  | cons i ids ih =>
    intro h
    have hi : i < (characters text).length := h i (List.mem_cons_self i ids)
    have hrest : ∀ j ∈ ids, j < (characters text).length :=
      fun j hj => h j (List.mem_cons_of_mem i hj)
    obtain ⟨cs, hdec, henc⟩ := Option.bind_eq_some.1 (ih hrest)
    have hitoc : itoc text i = some ((characters text)[i]) := by
      rw [itoc, List.getElem?_eq_getElem hi]
    have hmem : (characters text)[i] ∈ text :=
      mem_characters.1 (List.getElem_mem hi)
    have hidx : charIndex text ((characters text)[i]) = i := by
      rw [charIndex, List.indexOf_getElem (nodup_characters text) i hi]
    rw [decode, mapOpt, hitoc]
    rw [decode] at hdec
    rw [hdec]
    simp only [Option.bind_eq_bind, Option.some_bind, Option.pure_def]
    rw [encode, mapOpt, ctoi_eq_some hmem, hidx]
    rw [encode] at henc
    rw [henc]
    rfl

theorem buildLoop_eq (vtext : List Char) :
    ∀ (rest context : List Char), context ≠ [] →
    (∀ c ∈ context, c ∈ vtext) → (∀ c ∈ rest, c ∈ vtext) →
    buildLoop vtext context rest =
      some ((List.range rest.length).map
              (fun i => (((context ++ rest).drop i).take context.length).map (charIndex vtext)),
            rest.map (charIndex vtext)) := by
  intro rest
  induction rest with
  | nil =>
    intro context hne hmc hmr
    simp [buildLoop]
  | cons c rest ih =>
    intro context hne hmc hmr
    have hc : c ∈ vtext := hmr c (List.mem_cons_self c rest)
    have hmr2 : ∀ x ∈ rest, x ∈ vtext := fun x hx => hmr x (List.mem_cons_of_mem c hx)
    have hpos : 0 < context.length := List.length_pos.2 hne
    have hne2 : context.drop 1 ++ [c] ≠ [] := by simp
    have hmc2 : ∀ x ∈ context.drop 1 ++ [c], x ∈ vtext := by
      intro x hx
      rcases List.mem_append.1 hx with hx | hx
      · exact hmc x (List.mem_of_mem_drop hx)
      · rw [List.mem_singleton.1 hx]; exact hc
    have hlen : (context.drop 1 ++ [c]).length = context.length := by
      simp only [List.length_append, List.length_drop, List.length_singleton]
      omega
    have hshift : (context.drop 1 ++ [c]) ++ rest = (context ++ c :: rest).drop 1 := by
      rw [List.drop_append_of_le_length hpos]
      simp
    have ihx := ih (context.drop 1 ++ [c]) hne2 hmc2 hmr2
    rw [hshift, hlen] at ihx
    simp only [buildLoop, encode_eq_some hmc, ctoi_eq_some hc, ihx,
      Option.bind_eq_bind, Option.some_bind]
    refine congrArg some (Prod.ext ?_ ?_)
    · simp only [List.length_cons, List.range_succ_eq_map, List.map_cons, List.map_map,
        List.drop_zero, List.take_left]
      refine congrArg₂ List.cons rfl ?_
      apply List.map_congr_left
      intro i hi
      simp only [Function.comp_apply, List.drop_drop]
      rw [Nat.add_comm 1 i]
    · simp

theorem stack1_eq_some {l : List Nat} (hne : l ≠ []) : stack1 l = some l := by
  cases l with
  | nil => exact absurd rfl hne
  | cons x xs => rfl

theorem stack2_eq_some {l : List (List Nat)} {k : Nat} (hne : l ≠ [])
    (hk : ∀ x ∈ l, x.length = k) : stack2 l = some l := by
  cases l with
  | nil => exact absurd rfl hne
  | cons x xs =>
    have hcond : xs.all (fun y => y.length == x.length) = true := by
      rw [List.all_eq_true]
      intro y hy
      rw [beq_iff_eq, hk y (List.mem_cons_of_mem x hy),
        hk x (List.mem_cons_self x xs)]
    simp [stack2, hcond]

theorem build_dataset_eq_some {vtext : List Char} {context_size : Nat} {text : List Char}
    (hcs : 1 ≤ context_size) (hlt : context_size < text.length)
    (hmem : ∀ c ∈ text, c ∈ vtext) :
    build_dataset vtext context_size text =
      some ((List.range (text.length - context_size)).map
              (fun i => ((text.drop i).take context_size).map (charIndex vtext)),
            (text.drop context_size).map (charIndex vtext)) := by
  have hctx : (text.take context_size).length = context_size := by
    rw [List.length_take]
    omega
  have hne : text.take context_size ≠ [] :=
    List.ne_nil_of_length_pos (by omega)
  have hmc : ∀ c ∈ text.take context_size, c ∈ vtext :=
    fun c hc => hmem c (List.mem_of_mem_take hc)
  have hmr : ∀ c ∈ text.drop context_size, c ∈ vtext :=
    fun c hc => hmem c (List.mem_of_mem_drop hc)
  have hbl := buildLoop_eq vtext (text.drop context_size) (text.take context_size) hne hmc hmr
  rw [List.take_append_drop, hctx, List.length_drop] at hbl
  have hX : ∀ x ∈ (List.range (text.length - context_size)).map
      (fun i => ((text.drop i).take context_size).map (charIndex vtext)),
      x.length = context_size := by
    intro x hx
    rcases List.mem_map.1 hx with ⟨i, hi, rfl⟩
    rw [List.mem_range] at hi
    simp only [List.length_map, List.length_take, List.length_drop]
    omega
  have hXne : (List.range (text.length - context_size)).map
      (fun i => ((text.drop i).take context_size).map (charIndex vtext)) ≠ [] := by
    apply List.ne_nil_of_length_pos
    simp only [List.length_map, List.length_range]
    omega
  have hYne : (text.drop context_size).map (charIndex vtext) ≠ [] := by
    apply List.ne_nil_of_length_pos
    simp only [List.length_map, List.length_drop]
    omega
  rw [build_dataset]
  rw [hbl]
  simp only [Option.bind_eq_bind, Option.some_bind, stack2_eq_some hXne hX,
    stack1_eq_some hYne]
  rfl

theorem build_dataset_eq_none {vtext : List Char} {context_size : Nat} {text : List Char}
    (hle : text.length ≤ context_size) :
    build_dataset vtext context_size text = none := by
  have hdrop : text.drop context_size = [] := List.drop_eq_nil_of_le hle
  rw [build_dataset, hdrop]
  rfl

theorem decode_map_charIndex {text : List Char} :
    ∀ {s : List Char}, (∀ c ∈ s, c ∈ text) →
    decode text (s.map (charIndex text)) = some s := by
  intro s
  induction s with
  | nil => intro _; rfl
  | cons c s ih =>
    intro h
    have hc : c ∈ text := h c (List.mem_cons_self c s)
    have hs : ∀ x ∈ s, x ∈ text := fun x hx => h x (List.mem_cons_of_mem c hx)
    rw [List.map_cons, decode, mapOpt, itoc_charIndex hc]
    rw [decode] at ih
    rw [ih hs]
    rfl

/-- C1: for every sequence `s` of characters drawn entirely from characters
present in the Vocabulary built from the corpus `text`, decoding the encoding
of `s` (each character through `ctoi`, each resulting integer back through
`itoc`) returns `s` unchanged. -/
theorem decode_encode_roundtrip (text s : List Char)
    (h : ∀ c ∈ s, c ∈ characters text) :
    (encode text s).bind (decode text) = some s := by
  have hmem : ∀ c ∈ s, c ∈ text := fun c hc => mem_characters.1 (h c hc)
  rw [encode_eq_some hmem, Option.some_bind]
  exact decode_map_charIndex hmem

/-- Witness for C1 at the corpus `"bac"` and the sequence `"cab"`. -/
theorem decode_encode_roundtrip_witness :
    (∀ c ∈ ['c', 'a', 'b'], c ∈ characters ['b', 'a', 'c']) ∧
    (encode ['b', 'a', 'c'] ['c', 'a', 'b']).bind (decode ['b', 'a', 'c']) =
      some ['c', 'a', 'b'] :=
  ⟨by decide, decode_encode_roundtrip ['b', 'a', 'c'] ['c', 'a', 'b'] (by decide)⟩

/-- C6: the Vocabulary built from a corpus has size equal to the number of
distinct characters of the corpus, is sorted in code-point order without
duplicates, and assigns to the character at sorted position `i` exactly the
index `i` (so the index assignment is position in sorted order, starting at 0).
Stability across repeated calls is definitional here: `characters` is a pure
function of the corpus. -/
theorem vocabulary_build_spec (corpus : List Char) :
    (characters corpus).length = corpus.dedup.length ∧
    List.Sorted (· ≤ ·) (characters corpus) ∧
    (characters corpus).Nodup ∧
    ∀ i ch, (characters corpus)[i]? = some ch → ctoi corpus ch = some i := by
  refine ⟨length_characters corpus, sorted_characters corpus, nodup_characters corpus, ?_⟩
  intro i ch hch
  obtain ⟨hi, heq⟩ := List.getElem?_eq_some_iff.1 hch
  have hmem : ch ∈ corpus := heq ▸ mem_characters.1 (List.getElem_mem hi)
  rw [ctoi_eq_some hmem, charIndex, ← heq,
    List.indexOf_getElem (nodup_characters corpus) i hi]

/-- Witness for C6 at the corpus `"ba"`, reading off index 0. -/
theorem vocabulary_build_spec_witness :
    (characters ['b', 'a'])[0]? = some 'a' ∧ ctoi ['b', 'a'] 'a' = some 0 :=
  ⟨by decide, (vocabulary_build_spec ['b', 'a']).2.2.2 0 'a' (by decide)⟩

/-- C7: `encode` fails (with the `UnknownSymbol` KeyError) iff some character
of the input is not present in the Vocabulary; otherwise it returns the
sequence of indices of the characters. -/
theorem encode_unknown_symbol (text s : List Char) :
    (encode text s = none ↔ ∃ c ∈ s, c ∉ characters text) ∧
    ((∀ c ∈ s, c ∈ characters text) →
      encode text s = some (s.map (charIndex text))) := by
  refine ⟨encode_eq_none_iff, fun h => ?_⟩
  exact encode_eq_some fun c hc => mem_characters.1 (h c hc)

/-- Witness for C7: `encode` fails on `"z"` against the vocabulary of `"ab"`
and succeeds on `"ba"`. -/
theorem encode_unknown_symbol_witness :
    encode ['a', 'b'] ['z'] = none ∧ encode ['a', 'b'] ['b', 'a'] = some [1, 0] := by
  constructor
  · exact (encode_unknown_symbol ['a', 'b'] ['z']).1.mpr ⟨'z', by decide, by decide⟩
  · rw [(encode_unknown_symbol ['a', 'b'] ['b', 'a']).2 (by decide)]
    decide

/-- C8: for every list of integers that are all in range for the Vocabulary,
encoding the decoding of the list (each integer through `itoc`, each resulting
character back through `ctoi`) returns the list unchanged. -/
theorem encode_decode_roundtrip (text : List Char) (ids : List Nat)
    (h : ∀ i ∈ ids, i < (characters text).length) :
    (decode text ids).bind (encode text) = some ids :=
  decode_encode_of_lt h

/-- Witness for C8 at the corpus `"ab"` and the index list `[1, 0]`. -/
theorem encode_decode_roundtrip_witness :
    (∀ i ∈ [1, 0], i < (characters ['a', 'b']).length) ∧
    (decode ['a', 'b'] [1, 0]).bind (encode ['a', 'b']) = some [1, 0] :=
  ⟨by decide, encode_decode_roundtrip ['a', 'b'] [1, 0] (by decide)⟩

/-- C9: every integer produced by a successful `encode` lies in
`[0, vocabulary size)`, so decoding an output of `encode` never reaches the
`IndexOutOfRange` error branch of `itoc`. -/
theorem encode_indices_in_range (text s : List Char) (ids : List Nat)
    (h : encode text s = some ids) :
    (∀ i ∈ ids, i < (characters text).length) ∧ (decode text ids).isSome = true := by
  obtain ⟨hmem, hids⟩ := encode_some_inv h
  have hbound : ∀ i ∈ ids, i < (characters text).length := by
    intro i hi
    rw [hids] at hi
    rcases List.mem_map.1 hi with ⟨c, hc, rfl⟩
    exact charIndex_lt (hmem c hc)
  refine ⟨hbound, ?_⟩
  rw [hids, decode_map_charIndex hmem]
  rfl

/-- Witness for C9 at the corpus `"ab"` and the input `"b"`. -/
theorem encode_indices_in_range_witness :
    encode ['a', 'b'] ['b'] = some [1] ∧
    (∀ i ∈ [1], i < (characters ['a', 'b']).length) ∧
    (decode ['a', 'b'] [1]).isSome = true :=
  ⟨by decide, encode_indices_in_range ['a', 'b'] ['b'] [1] (by decide)⟩

/-- C2 counterexample: at the corpus `"a"` (all of whose characters are in the
vocabulary built from it) with `context_size = 1`, the claim predicts a dataset
of `max(0, 1 - 1) = 0` examples, but the code produces no dataset at all:
the loop body never runs, and `torch.stack` raises on the empty list. -/
theorem build_dataset_count_counterexample :
    build_dataset ['a'] 1 ['a'] = none := by decide

/-- C2 (amended): for `context_size ≥ 1` and a corpus of length `L` whose
characters are all in the Vocabulary, `build_dataset` produces exactly
`L - context_size` examples when `L > context_size`; when `L ≤ context_size`
it fails (the `torch.stack` of an empty list) instead of producing the
`max(0, L - context_size) = 0` examples the claim states. -/
theorem build_dataset_count (vtext : List Char) (context_size : Nat) (text : List Char)
    (hcs : 1 ≤ context_size) (hmem : ∀ c ∈ text, c ∈ characters vtext) :
    (context_size < text.length →
      ∃ X Y, build_dataset vtext context_size text = some (X, Y) ∧
        X.length = text.length - context_size ∧
        Y.length = text.length - context_size) ∧
    (text.length ≤ context_size → build_dataset vtext context_size text = none) := by
  have hmem2 : ∀ c ∈ text, c ∈ vtext := fun c hc => mem_characters.1 (hmem c hc)
  constructor
  · intro hlt
    refine ⟨_, _, build_dataset_eq_some hcs hlt hmem2, ?_, ?_⟩ <;> simp
  · exact build_dataset_eq_none

/-- Witness for C2 at the corpus `"aba"` with `context_size = 1`. -/
theorem build_dataset_count_witness :
    (1 ≤ 1 ∧ ∀ c ∈ ['a', 'b', 'a'], c ∈ characters ['a', 'b', 'a']) ∧
    ((1 < ['a', 'b', 'a'].length →
      ∃ X Y, build_dataset ['a', 'b', 'a'] 1 ['a', 'b', 'a'] = some (X, Y) ∧
        X.length = ['a', 'b', 'a'].length - 1 ∧
        Y.length = ['a', 'b', 'a'].length - 1) ∧
    (['a', 'b', 'a'].length ≤ 1 → build_dataset ['a', 'b', 'a'] 1 ['a', 'b', 'a'] = none)) :=
  ⟨⟨by decide, by decide⟩,
    build_dataset_count ['a', 'b', 'a'] 1 ['a', 'b', 'a'] (by decide) (by decide)⟩

/-- C3 counterexample: the claim's own boundary scenario, a corpus of length 10
with `context_size = 10`: the claim predicts an empty sequence of examples
returned without error, but the code fails (`torch.stack` raises on the empty
list it is given), producing no result. -/
theorem build_dataset_empty_counterexample :
    build_dataset ['A', 'B', 'C', 'D', 'E', 'F', 'G', 'H', 'I', 'J'] 10
      ['A', 'B', 'C', 'D', 'E', 'F', 'G', 'H', 'I', 'J'] = none := by decide

/-- C3 (amended): for every input whose length is at most `context_size`,
`build_dataset` forms no examples and then fails at the `torch.stack` of the
empty example list — it errors rather than returning an empty sequence. -/
theorem build_dataset_short_input (vtext : List Char) (context_size : Nat)
    (text : List Char) (h : text.length ≤ context_size) :
    build_dataset vtext context_size text = none :=
  build_dataset_eq_none h

/-- Witness for C3 at the corpus `"xy"` with `context_size = 5`. -/
theorem build_dataset_short_input_witness :
    ['x', 'y'].length ≤ 5 ∧ build_dataset ['x', 'y'] 5 ['x', 'y'] = none :=
  ⟨by decide, build_dataset_short_input ['x', 'y'] 5 ['x', 'y'] (by decide)⟩

/-- C4: for a corpus longer than `context_size` (characters all in the
Vocabulary) the examples are emitted for `t = context_size, …, length - 1` in
this strictly increasing order (the example for position `t` sits at index
`t - context_size`); the example for `t` has context the encoded characters at
positions `[t - context_size, t)` — of length exactly `context_size` — and
target the encoded character at position `t`. -/
theorem build_dataset_examples (vtext : List Char) (context_size : Nat) (text : List Char)
    (hcs : 1 ≤ context_size) (hlt : context_size < text.length)
    (hmem : ∀ c ∈ text, c ∈ characters vtext) :
    ∃ X Y, build_dataset vtext context_size text = some (X, Y) ∧
      X.length = text.length - context_size ∧
      ∀ t, context_size ≤ t → t < text.length →
        X[t - context_size]? =
          some (((text.drop (t - context_size)).take context_size).map (charIndex vtext)) ∧
        ((text.drop (t - context_size)).take context_size).length = context_size ∧
        Y[t - context_size]? = (text[t]?).map (charIndex vtext) := by
  have hmem2 : ∀ c ∈ text, c ∈ vtext := fun c hc => mem_characters.1 (hmem c hc)
  refine ⟨_, _, build_dataset_eq_some hcs hlt hmem2, by simp, ?_⟩
  intro t ht1 ht2
  have hidx : t - context_size < text.length - context_size := by omega
  refine ⟨?_, ?_, ?_⟩
  · rw [List.getElem?_map, List.getElem?_range hidx]
    rfl
  · simp only [List.length_take, List.length_drop]
    omega
  · rw [List.getElem?_map, List.getElem?_drop]
    have harith : context_size + (t - context_size) = t := by omega
    rw [harith]

/-- Witness for C4 at the spec scenario `"ABCDE"` with `context_size = 3`. -/
theorem build_dataset_examples_witness :
    (1 ≤ 3 ∧ 3 < ['A', 'B', 'C', 'D', 'E'].length ∧
      ∀ c ∈ ['A', 'B', 'C', 'D', 'E'], c ∈ characters ['A', 'B', 'C', 'D', 'E']) ∧
    ∃ X Y, build_dataset ['A', 'B', 'C', 'D', 'E'] 3 ['A', 'B', 'C', 'D', 'E'] =
        some (X, Y) ∧
      X.length = ['A', 'B', 'C', 'D', 'E'].length - 3 ∧
      ∀ t, 3 ≤ t → t < ['A', 'B', 'C', 'D', 'E'].length →
        X[t - 3]? = some (((['A', 'B', 'C', 'D', 'E'].drop (t - 3)).take 3).map
          (charIndex ['A', 'B', 'C', 'D', 'E'])) ∧
        ((['A', 'B', 'C', 'D', 'E'].drop (t - 3)).take 3).length = 3 ∧
        Y[t - 3]? = (['A', 'B', 'C', 'D', 'E'][t]?).map (charIndex ['A', 'B', 'C', 'D', 'E']) :=
  ⟨⟨by decide, by decide, by decide⟩,
    build_dataset_examples ['A', 'B', 'C', 'D', 'E'] 3 ['A', 'B', 'C', 'D', 'E']
      (by decide) (by decide) (by decide)⟩

/-- C5: `split_corpus` cuts the corpus at `floor(train_fraction * L)` (with the
fraction `num / den`, this is `num * L / den` in integer division): the train
part is `corpus[0 .. n)`, the validation part is `corpus[n .. L)`, the train
part has exactly `n` characters, and their concatenation reconstructs the
corpus (a single temporal cut with no overlap and no shuffling). -/
theorem split_corpus_lossless (num den : Nat) (corpus : List Char)
    (h0 : 0 < num) (h1 : num < den) :
    (split_corpus num den corpus).1 = corpus.take (num * corpus.length / den) ∧
    (split_corpus num den corpus).2 = corpus.drop (num * corpus.length / den) ∧
    (split_corpus num den corpus).1.length = num * corpus.length / den ∧
    (split_corpus num den corpus).1 ++ (split_corpus num den corpus).2 = corpus := by
  have hle : num * corpus.length / den ≤ corpus.length := by
    calc num * corpus.length / den
        ≤ den * corpus.length / den :=
          Nat.div_le_div_right (Nat.mul_le_mul_right _ (Nat.le_of_lt h1))
      _ = corpus.length := Nat.mul_div_cancel_left _ (by omega)
  refine ⟨rfl, rfl, ?_, List.take_append_drop _ _⟩
  show (corpus.take (num * corpus.length / den)).length = num * corpus.length / den
  rw [List.length_take]
  omega

/-- Witness for C5 at the corpus `"ABCDE"` with the source's fraction `4/5`. -/
theorem split_corpus_lossless_witness :
    (0 < 4 ∧ 4 < 5) ∧
    ((split_corpus 4 5 ['A', 'B', 'C', 'D', 'E']).1 =
        ['A', 'B', 'C', 'D', 'E'].take (4 * ['A', 'B', 'C', 'D', 'E'].length / 5) ∧
      (split_corpus 4 5 ['A', 'B', 'C', 'D', 'E']).2 =
        ['A', 'B', 'C', 'D', 'E'].drop (4 * ['A', 'B', 'C', 'D', 'E'].length / 5) ∧
      (split_corpus 4 5 ['A', 'B', 'C', 'D', 'E']).1.length =
        4 * ['A', 'B', 'C', 'D', 'E'].length / 5 ∧
      (split_corpus 4 5 ['A', 'B', 'C', 'D', 'E']).1 ++
        (split_corpus 4 5 ['A', 'B', 'C', 'D', 'E']).2 = ['A', 'B', 'C', 'D', 'E']) :=
  ⟨⟨by decide, by decide⟩,
    split_corpus_lossless 4 5 ['A', 'B', 'C', 'D', 'E'] (by decide) (by decide)⟩

/-- C10: the Vocabulary is built from the full corpus before splitting and the
two splits are contiguous substrings of the corpus, so encoding either split
against the shared Vocabulary never raises `UnknownSymbol`, for every corpus
and fraction in `(0, 1)`. -/
theorem split_encode_no_unknown (corpus : List Char) (num den : Nat)
    (h0 : 0 < num) (h1 : num < den) :
    (encode corpus (split_corpus num den corpus).1).isSome = true ∧
    (encode corpus (split_corpus num den corpus).2).isSome = true := by
  constructor
  · show (encode corpus (corpus.take (num * corpus.length / den))).isSome = true
    rw [encode_eq_some (fun c hc => List.mem_of_mem_take hc)]
    rfl
  · show (encode corpus (corpus.drop (num * corpus.length / den))).isSome = true
    rw [encode_eq_some (fun c hc => List.mem_of_mem_drop hc)]
    rfl

/-- Witness for C10 at the corpus `"abcab"` with the source's fraction `4/5`. -/
theorem split_encode_no_unknown_witness :
    (0 < 4 ∧ 4 < 5) ∧
    (encode ['a', 'b', 'c', 'a', 'b']
        (split_corpus 4 5 ['a', 'b', 'c', 'a', 'b']).1).isSome = true ∧
    (encode ['a', 'b', 'c', 'a', 'b']
        (split_corpus 4 5 ['a', 'b', 'c', 'a', 'b']).2).isSome = true :=
  ⟨⟨by decide, by decide⟩,
    split_encode_no_unknown ['a', 'b', 'c', 'a', 'b'] 4 5 (by decide) (by decide)⟩

end Quijote
